/- Verification development for the learndocs crawl-cache-index pipeline.

   The subject is the `fetch` command of `src/main.py`: a breadth-limited
   link walker with an on-disk content cache, an HTML normalizer, a
   semantic chunker and a vector-store upsert.  External collaborators
   (HTTP transport, BeautifulSoup normalization, markdownify, the
   semantic chunker, sha256) are modelled as components of an `Env`
   record of abstract functions; the crawl loop, cache decisions, record
   construction and frontier bookkeeping are translated line by line. -/
import Mathlib

namespace Learndocs

/-- A frontier entry, `LinkInfo` in `main.py`: `{"link": url, "depth": d}`. -/
structure LinkInfo where
  link : String
  depth : Nat
deriving DecidableEq

/-- One record handed to the vector store: document text, id, and the
metadata dict (kept as an association list in the dict's insertion
order `source_url`, `title`, `id`). -/
structure ChunkRecord where
  document : String
  id : String
  metadata : List (String × String)
deriving DecidableEq

/-- Ghost log of one page whose content resolved: its URL, the value of
`n` at the time the ids were built (after the `n = n + 1` of the depth
check), the cleaned HTML `str(soup)`, the `title` string, and the
chunker's result (`none` when `create_documents` raised). -/
structure PageLog where
  url : String
  nAt : Nat
  cleaned : String
  title : String
  splitOk : Option (List String)
deriving DecidableEq

/-- The external collaborators of `fetch`, as abstract functions:
`sha256hex` is `hashlib.sha256(...).hexdigest()`, `net` is
`requests.get` (`none` = `RequestException`, `some body` =
`response.text` after `raise_for_status`), `cleanHtml` is parse +
`decompose` of the stripped tags + `str(soup)`, `titleTag` is
`soup.title` rendered by `str` (absent = `none`), `toMd` is
`markdownify`, `split` is `SemanticChunker.create_documents` returning
the page contents (`error` = the chunker raised), `hrefs` lists the
`href` attributes of `soup.find_all("a")` in order (`none` = anchor
without `href`), and `urljoin` is `urllib.parse.urljoin`. -/
structure Env where
  sha256hex : String → String
  net : String → Option String
  cleanHtml : String → String
  titleTag : String → Option String
  toMd : String → String
  split : String → Except Unit (List String)
  hrefs : String → List (Option String)
  urljoin : String → String → String

/-- The on-disk cache as a map from file path to file content. -/
def Cache := String → Option String

/-- `os.path.join("cache", project, f"{name}.txt")`. -/
def cachePath (project name : String) : String :=
  "cache/" ++ project ++ "/" ++ name ++ ".txt"

/-- Functional update of the cache, the effect of `write_cache`. -/
def updateCache (c : Cache) (k v : String) : Cache :=
  fun q => if q = k then some v else c q

/-- Python truthiness of the `html_content` variable: `None` and the
empty string are falsy. -/
def truthy : Option String → Bool
  | none => false
  | some t => t != ""

/-- `str(soup.title)`: the rendered tag when a title element exists,
and `str(None) = "None"` otherwise. -/
def titleFrom : Option String → String
  | some t => t
  | none => "None"

/-- Character-list version of "starts with". -/
def leadsWith : List Char → List Char → Bool
  | [], _ => true
  | _ :: _, [] => false
  | a :: as, b :: bs => a == b && leadsWith as bs

/-- Character-list version of "occurs inside". -/
def containsSeq (needle : List Char) : List Char → Bool
  | [] => leadsWith needle []
  | b :: bs => leadsWith needle (b :: bs) || containsSeq needle bs

/-- Python's `needle in hay` on strings. -/
def hasSubstr (hay needle : String) : Bool :=
  containsSeq needle.toList hay.toList

/-- The chunk id `f"url_crawler_{title}_{n}_{i}"`. -/
def mkId (title : String) (n i : Nat) : String :=
  "url_crawler_" ++ title ++ "_" ++ toString n ++ "_" ++ toString i

/-- The records built by the `for i, line in enumerate(docs)` loop:
document text, id, and the metadata dict with keys
`source_url`, `title`, `id`. -/
def mkRecords (url title : String) (n : Nat) (docs : List String) : List ChunkRecord :=
  docs.enum.map fun pr =>
    { document := pr.2
      id := mkId title n pr.1
      metadata := [("source_url", url), ("title", title), ("id", mkId title n pr.1)] }

/-- The batch a logged page contributed to the index: `none` when the
chunker raised (no `add_data` call was reached). -/
def pageRecs (pg : PageLog) : Option (List ChunkRecord) :=
  pg.splitOk.map (mkRecords pg.url pg.title pg.nAt)

/-- The mutable state of one `fetch` run.  `links`, `visited`,
`failed` (`links_not_downloaded`), `n` and `cache` are the program's
variables; `upserts` records the `add_data` calls in order; `pages`,
`netAttempts`, `cacheHits`, `cacheWrites` and `processedItems` are
ghost logs of events, used to state properties. -/
structure St where
  links : List LinkInfo
  visited : List String
  failed : List String
  n : Nat
  cache : Cache
  upserts : List (List ChunkRecord)
  pages : List PageLog
  netAttempts : List String
  cacheHits : List String
  cacheWrites : List (String × String)
  processedItems : List LinkInfo

/-- Link extraction for one anchor (`for link in all_links` body):
skip missing `href`, skip `"/cdn-cgi" in href`, skip `"#" in href`,
resolve against the seed, then offer to the frontier only if the seed
is a substring of the resolved URL and it is not yet visited. -/
def offerLink (E : Env) (original : String) (depth : Nat) (s : St) (h : Option String) : St :=
  match h with
  | none => s
  | some href =>
    if hasSubstr href "/cdn-cgi" then s
    else if hasSubstr href "#" then s
    else
      let complete := E.urljoin original href
      if hasSubstr complete original = true ∧ complete ∉ s.visited then
        { s with visited := s.visited ++ [complete]
                 links := s.links ++ [⟨complete, depth + 1⟩] }
      else s

/-- Content resolution for the current URL: the cache read guarded by
`force_recache` and `check_cache`, then the network fetch when the
resolved value is falsy, recording a failed download on
`RequestException`. -/
def resolveContent (E : Env) (project : String) (force : Bool) (s : St) (url : String) :
    Option String × St :=
  let fpath := cachePath project (E.sha256hex url)
  let html0 : Option String :=
    if force = false ∧ (s.cache fpath).isSome then s.cache fpath else none
  if truthy html0 then
    (html0, { s with cacheHits := s.cacheHits ++ [url] })
  else
    let s1 := { s with netAttempts := s.netAttempts ++ [url] }
    match E.net url with
    | some body => (some body, s1)
    | none =>
      (html0, { s1 with failed := if url ∈ s1.failed then s1.failed else s1.failed ++ [url] })

/-- The tail of the `if html_content:` body, as a function of the
cleaned HTML `str(soup)`: write the cleaned HTML back to the cache,
take `str(soup.title)`, markdownify, chunk (`true` in the result = the
chunker raised and the exception propagates), build and upsert the
records, then extract links. -/
def pageCore (E : Env) (project original : String) (s : St) (cur : LinkInfo)
    (cleaned : String) : St × Bool :=
  let fpath := cachePath project (E.sha256hex cur.link)
  let s1 := { s with cache := updateCache s.cache fpath cleaned
                     cacheWrites := s.cacheWrites ++ [(fpath, cleaned)] }
  let title := titleFrom (E.titleTag cleaned)
  match E.split (E.toMd cleaned) with
  | Except.error _ =>
    ({ s1 with pages := s1.pages ++ [⟨cur.link, s1.n, cleaned, title, none⟩] }, true)
  | Except.ok docs =>
    let s2 := { s1 with pages := s1.pages ++ [⟨cur.link, s1.n, cleaned, title, some docs⟩]
                        upserts := s1.upserts ++ [mkRecords cur.link title s1.n docs] }
    ((E.hrefs cleaned).foldl (offerLink E original cur.depth) s2, false)

/-- The `if html_content:` body: its first line computes
`soup = BeautifulSoup(...)` with the tag stripping, i.e. the cleaned
HTML, and the rest is `pageCore`. -/
def handlePage (E : Env) (project original : String) (s : St) (cur : LinkInfo)
    (raw : String) : St × Bool :=
  pageCore E project original s cur (E.cleanHtml raw)

/-- One loop iteration body after the depth check: `n = n + 1`, then
content resolution, then the `if html_content:` branch.  The boolean
is `true` when the chunker raised. -/
def processItem (E : Env) (project original : String) (force : Bool) (s : St)
    (cur : LinkInfo) : St × Bool :=
  let s1 := { s with n := s.n + 1, processedItems := s.processedItems ++ [cur] }
  let r := resolveContent E project force s1 cur.link
  if truthy r.1 then handlePage E project original r.2 cur (r.1.getD "")
  else (r.2, false)

/-- How one run ended: `completed` is the normal loop exit,
`depthExceeded` the `typer.Exit` of the depth check, `chunkerCrash`
the unhandled chunker exception, `configError` the missing-argument
exits, `fuelOut` is unreachable (the loop bound pays for the fuel). -/
inductive Outcome where
  | completed
  | depthExceeded
  | chunkerCrash
  | configError
  | fuelOut
deriving DecidableEq

/-- The crawl loop `while n < max_links and n < len(links)` with the
depth check `if current_depth < max_depth` at the top of the body. -/
def loop (E : Env) (project original : String) (force : Bool) (maxL maxD : Nat) :
    Nat → St → Outcome × St
  | 0, s =>
    if s.n < maxL ∧ s.n < s.links.length then (Outcome.fuelOut, s)
    else (Outcome.completed, s)
  | fuel + 1, s =>
    if s.n < maxL ∧ s.n < s.links.length then
      let cur := s.links.getD s.n ⟨"", 0⟩
      if cur.depth < maxD then
        match processItem E project original force s cur with
        | (s1, true) => (Outcome.chunkerCrash, s1)
        | (s1, false) => loop E project original force maxL maxD fuel s1
      else (Outcome.depthExceeded, s)
    else (Outcome.completed, s)

/-- What the final console summary reports. -/
inductive ReportItem where
  | visitedCount (k : Nat)
  | failedCount (k : Nat)
  | elapsed
deriving DecidableEq

/-- `true` iff the summary mentions the failed-download set/count. -/
def reportsFailed (l : List ReportItem) : Bool :=
  l.any fun r => match r with
    | ReportItem.failedCount _ => true
    | _ => false

/-- The prints at each exit: the depth exit prints the visited count
and, only when nonzero, the failed count; the normal exit prints the
visited count and the elapsed time; a crash prints no summary. -/
def summaryOf (o : Outcome) (s : St) : List ReportItem :=
  match o with
  | Outcome.completed => [ReportItem.visitedCount s.visited.length, ReportItem.elapsed]
  | Outcome.depthExceeded =>
    ReportItem.visitedCount s.visited.length ::
      (if 0 < s.failed.length then [ReportItem.failedCount s.failed.length] else [])
  | _ => []

/-- `max_links = 10` in `fetch`. -/
def max_links : Nat := 10

/-- `max_depth = 1` in `fetch`. -/
def max_depth : Nat := 1

/-- The state after the setup lines: the frontier holds the seed at
depth 0 and the seed is already visited. -/
def initSt (original : String) (cache0 : Cache) : St :=
  { links := [⟨original, 0⟩]
    visited := [original]
    failed := []
    n := 0
    cache := cache0
    upserts := []
    pages := []
    netAttempts := []
    cacheHits := []
    cacheWrites := []
    processedItems := [] }

/-- Everything observable about one `fetch` run. -/
structure FetchResult where
  outcome : Outcome
  state : St
  summary : List ReportItem

/-- The `fetch` command: argument validation, state setup, the crawl
loop with `max_links = 10` and `max_depth = 1`, and the final
summary. -/
def fetch (E : Env) (project original : String) (force : Bool) (cache0 : Cache) :
    FetchResult :=
  if project = "" ∨ original = "" then
    { outcome := Outcome.configError, state := initSt original cache0, summary := [] }
  else
    let r := loop E project original force max_links max_depth max_links
      (initSt original cache0)
    { outcome := r.1, state := r.2, summary := summaryOf r.1 r.2 }

/-! Concrete instantiations of the external collaborators, used to
evaluate the model on explicit inputs. -/

/-- The empty cache directory. -/
def c0e : Cache := fun _ => none

/-- One seed page `"s"` whose body cleans to itself, chunks to a
single span, and carries one same-site link `/a`. -/
def envOneLink : Env where
  sha256hex := fun u => u
  net := fun u => if u = "s" then some "B" else none
  cleanHtml := fun x => x
  titleTag := fun _ => some "<title>T</title>"
  toMd := fun x => x
  split := fun x => Except.ok [x]
  hrefs := fun _ => [some "/a"]
  urljoin := fun o h => o ++ h

/-- A seed page on which the chunker raises. -/
def envChunkerRaises : Env where
  sha256hex := fun u => u
  net := fun u => if u = "s" then some "B" else none
  cleanHtml := fun x => x
  titleTag := fun _ => some "<title>T</title>"
  toMd := fun x => x
  split := fun _ => Except.error ()
  hrefs := fun _ => [some "/a"]
  urljoin := fun o h => o ++ h

/-- A transport on which every fetch raises `RequestException`. -/
def envFetchFails : Env where
  sha256hex := fun u => u
  net := fun _ => none
  cleanHtml := fun x => x
  titleTag := fun _ => some "<title>T</title>"
  toMd := fun x => x
  split := fun x => Except.ok [x]
  hrefs := fun _ => []
  urljoin := fun o h => o ++ h

/-- A seed page whose document has no `title` element. -/
def envNoTitleTag : Env where
  sha256hex := fun u => u
  net := fun u => if u = "s" then some "B" else none
  cleanHtml := fun x => x
  titleTag := fun _ => none
  toMd := fun x => x
  split := fun x => Except.ok [x]
  hrefs := fun _ => []
  urljoin := fun o h => o ++ h

/-- A dead transport: content can only come from the cache. -/
def envCachedOnly : Env where
  sha256hex := fun u => u
  net := fun _ => none
  cleanHtml := fun x => x
  titleTag := fun _ => some "<title>T</title>"
  toMd := fun x => x
  split := fun x => Except.ok [x]
  hrefs := fun _ => []
  urljoin := fun o h => o ++ h

/-- A warm cache holding cleaned content `"C"` for the seed `"s"` of
project `"p"`. -/
def cacheWarm : Cache := fun q => if q = "cache/p/s.txt" then some "C" else none

/-- A cache whose file for the seed `"s"` of project `"p"` exists but
is empty. -/
def cacheEmptyFile : Cache := fun q => if q = "cache/p/s.txt" then some "" else none

/-- A transport whose successful response body is empty. -/
def envEmptyBody : Env where
  sha256hex := fun u => u
  net := fun _ => some ""
  cleanHtml := fun x => x
  titleTag := fun _ => some "<title>T</title>"
  toMd := fun x => x
  split := fun x => Except.ok [x]
  hrefs := fun _ => []
  urljoin := fun o h => o ++ h

/-! Structural invariants of the crawl state. -/

/-- Structural invariant of a run state: the visited set is exactly
the multiset of enqueued URLs and is duplicate free, the processed
items are the first `n` frontier entries, every logged page belongs to
a processed item (in order), the upsert batches are exactly the
batches of the non-crashed logged pages, the cache-write log is one
cleaned-HTML write per logged page, and every logged title is
`str(soup.title)` of the page's cleaned HTML. -/
structure Inv0 (E : Env) (p : String) (s : St) : Prop where
  vis_links : s.visited = s.links.map LinkInfo.link
  vis_nodup : s.visited.Nodup
  n_le : s.n ≤ s.links.length
  proc_take : s.processedItems = s.links.take s.n
  pages_sub : (s.pages.map PageLog.url).Sublist (s.processedItems.map LinkInfo.link)
  ups_pages : s.upserts = s.pages.filterMap pageRecs
  writes_pages :
    s.cacheWrites = s.pages.map fun pg => (cachePath p (E.sha256hex pg.url), pg.cleaned)
  titles : ∀ pg ∈ s.pages, pg.title = titleFrom (E.titleTag pg.cleaned)

/-- Cache invariant (needs an injective digest): the cache holds every
logged page's cleaned HTML at that page's path. -/
def InvCache (E : Env) (p : String) (s : St) : Prop :=
  ∀ pg ∈ s.pages, s.cache (cachePath p (E.sha256hex pg.url)) = some pg.cleaned

/-- Explicit value of the frontier entries the link-extraction loop
adds, as a function of the anchors and the visited set. -/
def offerNew (E : Env) (o : String) (d : Nat) (vis : List String) :
    List (Option String) → List LinkInfo
  | [] => []
  | none :: hs => offerNew E o d vis hs
  | some href :: hs =>
    if hasSubstr href "/cdn-cgi" then offerNew E o d vis hs
    else if hasSubstr href "#" then offerNew E o d vis hs
    else
      let complete := E.urljoin o href
      if hasSubstr complete o = true ∧ complete ∉ vis then
        ⟨complete, d + 1⟩ :: offerNew E o d (vis ++ [complete]) hs
      else offerNew E o d vis hs

/-! ## Characterization of link extraction -/

theorem offer_fold_eq (E : Env) (o : String) (d : Nat) (hs : List (Option String)) :
    ∀ s : St, hs.foldl (offerLink E o d) s =
      { s with visited := s.visited ++ (offerNew E o d s.visited hs).map LinkInfo.link
               links := s.links ++ offerNew E o d s.visited hs } := by
  induction hs with
  | nil => intro s; simp [offerNew]
  | cons h hs ih =>
    intro s
    cases h with
    | none => simpa [offerNew, offerLink] using ih s
    | some href =>
      by_cases h1 : hasSubstr href "/cdn-cgi"
      · simpa [offerNew, offerLink, h1] using ih s
      · by_cases h2 : hasSubstr href "#"
        · simpa [offerNew, offerLink, h1, h2] using ih s
        · by_cases h3 : hasSubstr (E.urljoin o href) o = true ∧ E.urljoin o href ∉ s.visited
          · have hstep : offerLink E o d s (some href) =
                { s with visited := s.visited ++ [E.urljoin o href]
                         links := s.links ++ [⟨E.urljoin o href, d + 1⟩] } := by
              simp [offerLink, h1, h2, h3]
            rw [List.foldl_cons, hstep, ih]
            simp [offerNew, h1, h2, h3, List.append_assoc]
          · simpa [offerNew, offerLink, h1, h2, h3] using ih s

theorem offerNew_spec (E : Env) (o : String) (d : Nat) (hs : List (Option String)) :
    ∀ vis, (∀ it ∈ offerNew E o d vis hs, it.depth = d + 1 ∧ it.link ∉ vis) ∧
      ((offerNew E o d vis hs).map LinkInfo.link).Nodup := by
  induction hs with
  | nil => intro vis; simp [offerNew]
  | cons h hs ih =>
    intro vis
    cases h with
    | none => simpa [offerNew] using ih vis
    | some href =>
      by_cases h1 : hasSubstr href "/cdn-cgi"
      · simpa [offerNew, h1] using ih vis
      · by_cases h2 : hasSubstr href "#"
        · simpa [offerNew, h1, h2] using ih vis
        · by_cases h3 : hasSubstr (E.urljoin o href) o = true ∧ E.urljoin o href ∉ vis
          · have hih := ih (vis ++ [E.urljoin o href])
            simp only [offerNew, h1, h2, if_pos h3, if_false, Bool.false_eq_true]
            constructor
            · intro it hit
              rcases List.mem_cons.1 hit with rfl | hmem
              · exact ⟨rfl, h3.2⟩
              · rcases hih.1 it hmem with ⟨hd, hv⟩
                refine ⟨hd, fun hcon => hv ?_⟩
                exact List.mem_append.2 (Or.inl hcon)
            · simp only [List.map_cons, List.nodup_cons]
              refine ⟨fun hcon => ?_, hih.2⟩
              rcases List.mem_map.1 hcon with ⟨it, hmem, hlink⟩
              have := (hih.1 it hmem).2
              exact this (by simp [hlink])
          · simpa [offerNew, h1, h2, h3] using ih vis

/-! ## Characterization of content resolution and of one iteration -/

theorem resolve_fields (E : Env) (p : String) (f : Bool) (s : St) (url : String) :
    (resolveContent E p f s url).2.links = s.links ∧
    (resolveContent E p f s url).2.visited = s.visited ∧
    (resolveContent E p f s url).2.n = s.n ∧
    (resolveContent E p f s url).2.processedItems = s.processedItems ∧
    (resolveContent E p f s url).2.pages = s.pages ∧
    (resolveContent E p f s url).2.upserts = s.upserts ∧
    (resolveContent E p f s url).2.cache = s.cache ∧
    (resolveContent E p f s url).2.cacheWrites = s.cacheWrites := by
  simp only [resolveContent]
  by_cases hf : f = false ∧ (s.cache (cachePath p (E.sha256hex url))).isSome = true
  · rw [if_pos hf]
    by_cases ht : truthy (s.cache (cachePath p (E.sha256hex url))) = true
    · rw [if_pos ht]
      simp
    · rw [if_neg ht]
      cases hnet : E.net url <;> simp [hnet]
  · rw [if_neg hf, if_neg (by simp [truthy] : ¬ truthy none = true)]
    cases hnet : E.net url <;> simp [hnet]

theorem resolve_truthy_failed (E : Env) (p : String) (f : Bool) (s : St) (url : String)
    (h : truthy (resolveContent E p f s url).1 = true) :
    (resolveContent E p f s url).2.failed = s.failed := by
  revert h
  simp only [resolveContent]
  by_cases hf : f = false ∧ (s.cache (cachePath p (E.sha256hex url))).isSome = true
  · rw [if_pos hf]
    by_cases ht : truthy (s.cache (cachePath p (E.sha256hex url))) = true
    · rw [if_pos ht]
      intro _
      rfl
    · rw [if_neg ht]
      cases hnet : E.net url <;> simp [hnet, ht]
  · rw [if_neg hf, if_neg (by simp [truthy] : ¬ truthy none = true)]
    cases hnet : E.net url <;> simp [hnet, truthy]

theorem resolve_cache_hit (E : Env) (p : String) (s : St) (url : String)
    (h : truthy (s.cache (cachePath p (E.sha256hex url))) = true) :
    resolveContent E p false s url =
      (s.cache (cachePath p (E.sha256hex url)),
        { s with cacheHits := s.cacheHits ++ [url] }) := by
  have hsome : (s.cache (cachePath p (E.sha256hex url))).isSome = true := by
    cases hc : s.cache (cachePath p (E.sha256hex url)) <;> simp [hc, truthy] at h ⊢
  simp [resolveContent, hsome, h]

theorem pageCore_spec (E : Env) (p o : String) (s : St) (cur : LinkInfo) (cleaned : String)
    (s1 : St) (b : Bool) (h : pageCore E p o s cur cleaned = (s1, b)) :
    s1.n = s.n ∧ s1.processedItems = s.processedItems ∧ s1.failed = s.failed ∧
    s1.netAttempts = s.netAttempts ∧
    s1.cache = updateCache s.cache (cachePath p (E.sha256hex cur.link)) cleaned ∧
    s1.cacheWrites = s.cacheWrites ++ [(cachePath p (E.sha256hex cur.link), cleaned)] ∧
    ((b = true ∧ E.split (E.toMd cleaned) = Except.error () ∧
        s1.pages = s.pages ++
          [⟨cur.link, s.n, cleaned, titleFrom (E.titleTag cleaned), none⟩] ∧
        s1.upserts = s.upserts ∧ s1.links = s.links ∧ s1.visited = s.visited) ∨
     (∃ docs, b = false ∧ E.split (E.toMd cleaned) = Except.ok docs ∧
        s1.pages = s.pages ++
          [⟨cur.link, s.n, cleaned, titleFrom (E.titleTag cleaned), some docs⟩] ∧
        s1.upserts = s.upserts ++
          [mkRecords cur.link (titleFrom (E.titleTag cleaned)) s.n docs] ∧
        s1.links = s.links ++ offerNew E o cur.depth s.visited (E.hrefs cleaned) ∧
        s1.visited = s.visited ++
          (offerNew E o cur.depth s.visited (E.hrefs cleaned)).map LinkInfo.link)) := by
  cases hsplit : E.split (E.toMd cleaned) with
  | error e =>
    simp only [pageCore, hsplit] at h
    obtain ⟨hs1, hb⟩ : _ ∧ _ := Prod.mk.injEq .. ▸ h
    subst hs1
    subst hb
    exact ⟨rfl, rfl, rfl, rfl, rfl, rfl, Or.inl ⟨rfl, rfl, rfl, rfl, rfl, rfl⟩⟩
  | ok docs =>
    simp only [pageCore, hsplit, offer_fold_eq] at h
    obtain ⟨hs1, hb⟩ : _ ∧ _ := Prod.mk.injEq .. ▸ h
    subst hs1
    subst hb
    exact ⟨rfl, rfl, rfl, rfl, rfl, rfl, Or.inr ⟨docs, rfl, rfl, rfl, rfl, rfl, rfl⟩⟩

theorem processItem_spec (E : Env) (p o : String) (f : Bool) (s : St) (cur : LinkInfo)
    (s1 : St) (b : Bool) (hrun : processItem E p o f s cur = (s1, b)) :
    s1.n = s.n + 1 ∧ s1.processedItems = s.processedItems ++ [cur] ∧
    ((b = false ∧ s1.links = s.links ∧ s1.visited = s.visited ∧ s1.pages = s.pages ∧
        s1.upserts = s.upserts ∧ s1.cache = s.cache ∧ s1.cacheWrites = s.cacheWrites) ∨
     (∃ cleaned,
        s1.failed = s.failed ∧
        s1.cache = updateCache s.cache (cachePath p (E.sha256hex cur.link)) cleaned ∧
        s1.cacheWrites =
          s.cacheWrites ++ [(cachePath p (E.sha256hex cur.link), cleaned)] ∧
        ((b = true ∧ E.split (E.toMd cleaned) = Except.error () ∧
            s1.pages = s.pages ++
              [⟨cur.link, s.n + 1, cleaned, titleFrom (E.titleTag cleaned), none⟩] ∧
            s1.upserts = s.upserts ∧ s1.links = s.links ∧ s1.visited = s.visited) ∨
         (∃ docs, b = false ∧ E.split (E.toMd cleaned) = Except.ok docs ∧
            s1.pages = s.pages ++
              [⟨cur.link, s.n + 1, cleaned, titleFrom (E.titleTag cleaned), some docs⟩] ∧
            s1.upserts = s.upserts ++
              [mkRecords cur.link (titleFrom (E.titleTag cleaned)) (s.n + 1) docs] ∧
            s1.links = s.links ++ offerNew E o cur.depth s.visited (E.hrefs cleaned) ∧
            s1.visited = s.visited ++
              (offerNew E o cur.depth s.visited (E.hrefs cleaned)).map LinkInfo.link)))) := by
  simp only [processItem] at hrun
  obtain ⟨hl, hv, hn, hpi, hpg, hup, hc, hcw⟩ := resolve_fields E p f
    { s with n := s.n + 1, processedItems := s.processedItems ++ [cur] } cur.link
  by_cases ht : truthy (resolveContent E p f
      { s with n := s.n + 1, processedItems := s.processedItems ++ [cur] } cur.link).1 = true
  · have hfailed := resolve_truthy_failed E p f
      { s with n := s.n + 1, processedItems := s.processedItems ++ [cur] } cur.link ht
    rw [if_pos ht] at hrun
    simp only [handlePage] at hrun
    obtain ⟨pn, ppi, pfl, pna, pc, pcw, prest⟩ := pageCore_spec E p o _ cur _ s1 b hrun
    simp only [hn, hl, hv, hpg, hup, hc, hcw, hpi, hfailed] at pn ppi pfl pc pcw prest
    refine ⟨pn, ppi, Or.inr ⟨E.cleanHtml ((resolveContent E p f
      { s with n := s.n + 1, processedItems := s.processedItems ++ [cur] }
        cur.link).1.getD ""), pfl, pc, pcw, ?_⟩⟩
    exact prest
  · rw [if_neg ht] at hrun
    obtain ⟨hs1, hb⟩ : _ ∧ _ := Prod.mk.injEq .. ▸ hrun
    subst hs1
    subst hb
    exact ⟨hn, hpi, Or.inl ⟨rfl, hl, hv, hpg, hup, hc, hcw⟩⟩

/-! ## Loop-level lemmas -/

theorem loop_preserves (E : Env) (p o : String) (f : Bool) (L D : Nat)
    (P : St → Prop)
    (hstep : ∀ s s1 b, P s → s.n < L → s.n < s.links.length →
      (s.links.getD s.n ⟨"", 0⟩).depth < D →
      processItem E p o f s (s.links.getD s.n ⟨"", 0⟩) = (s1, b) → P s1) :
    ∀ fuel s, P s → P (loop E p o f L D fuel s).2 := by
  intro fuel
  induction fuel with
  | zero =>
    intro s hP
    simp only [loop]
    split <;> exact hP
  | succ fuel ih =>
    intro s hP
    simp only [loop]
    split
    · next hcond =>
      split
      · next hdepth =>
        cases hpi : processItem E p o f s (s.links.getD s.n ⟨"", 0⟩) with
        | mk s1 b =>
          cases b
          · exact ih s1 (hstep s s1 false hP hcond.1 hcond.2 hdepth hpi)
          · exact hstep s s1 true hP hcond.1 hcond.2 hdepth hpi
      · exact hP
    · exact hP

theorem loop_fuel_enough (E : Env) (p o : String) (f : Bool) (L D : Nat) :
    ∀ fuel s, L ≤ s.n + fuel → (loop E p o f L D fuel s).1 ≠ Outcome.fuelOut := by
  intro fuel
  induction fuel with
  | zero =>
    intro s hL
    simp only [loop]
    split
    · next hcond => omega
    · simp
  | succ fuel ih =>
    intro s hL
    simp only [loop]
    split
    · next hcond =>
      split
      · next hdepth =>
        cases hpi : processItem E p o f s (s.links.getD s.n ⟨"", 0⟩) with
        | mk s1 b =>
          cases b
          · refine ih s1 ?_
            have hn := (processItem_spec E p o f s _ s1 false hpi).1
            omega
          · simp
      · simp
    · simp

theorem loop_crash_spec (E : Env) (p o : String) (f : Bool) (L D : Nat) :
    ∀ fuel s o2 s2, loop E p o f L D fuel s = (o2, s2) →
      o2 = Outcome.chunkerCrash →
      ∃ pg cur, s2.pages.getLast? = some pg ∧ pg.splitOk = none ∧
        s2.processedItems.getLast? = some cur ∧ cur.link = pg.url := by
  intro fuel
  induction fuel with
  | zero =>
    intro s o2 s2 h hc
    simp only [loop] at h
    split at h <;> (injection h with h1 h2; subst h1; simp at hc)
  | succ fuel ih =>
    intro s o2 s2 h hc
    simp only [loop] at h
    split at h
    · next hcond =>
      split at h
      · next hdepth =>
        cases hpi : processItem E p o f s (s.links.getD s.n ⟨"", 0⟩) with
        | mk s1 b =>
          rw [hpi] at h
          cases b
          · exact ih s1 o2 s2 h hc
          · injection h with h1 h2
            subst h2
            obtain ⟨hn, hproc, hdisj⟩ := processItem_spec E p o f s _ s1 true hpi
            rcases hdisj with ⟨hb, _⟩ | ⟨cleaned, _, _, _, hin⟩
            · exact absurd hb (by simp)
            · rcases hin with ⟨_, hsp, hpg, _⟩ | ⟨docs, hb, _⟩
              · refine ⟨⟨(s.links.getD s.n ⟨"", 0⟩).link, s.n + 1, cleaned,
                  titleFrom (E.titleTag cleaned), none⟩, s.links.getD s.n ⟨"", 0⟩,
                  ?_, rfl, ?_, rfl⟩
                · rw [hpg]; simp
                · rw [hproc]; simp
              · exact absurd hb (by simp)
      · injection h with h1 h2
        subst h1
        simp at hc
    · injection h with h1 h2
      subst h1
      simp at hc

/-! ## The structural invariant holds along every run -/

theorem inv0_init (E : Env) (p o : String) (c0 : Cache) : Inv0 E p (initSt o c0) := by
  refine ⟨?_, ?_, ?_, ?_, ?_, ?_, ?_, ?_⟩ <;> simp [initSt]

theorem inv0_step (E : Env) (p o : String) (f : Bool) (s s1 : St) (b : Bool)
    (hInv : Inv0 E p s) (hlen : s.n < s.links.length)
    (hpi : processItem E p o f s (s.links.getD s.n ⟨"", 0⟩) = (s1, b)) :
    Inv0 E p s1 := by
  obtain ⟨hn, hproc, hdisj⟩ := processItem_spec E p o f s _ s1 b hpi
  have hcur : s.links[s.n]? = some (s.links.getD s.n ⟨"", 0⟩) := by
    rw [List.getD_eq_getElem s.links _ hlen]
    exact List.getElem?_eq_getElem hlen
  have htake : s.links.take (s.n + 1) = s.links.take s.n ++ [s.links.getD s.n ⟨"", 0⟩] := by
    rw [List.take_succ, hcur]
    rfl
  rcases hdisj with ⟨hb, hl, hv, hpg, hup, hc, hcw⟩ | ⟨cleaned, hfl, hc, hcw, hin⟩
  · exact
      { vis_links := by rw [hv, hl, hInv.vis_links]
        vis_nodup := by rw [hv]; exact hInv.vis_nodup
        n_le := by rw [hn, hl]; omega
        proc_take := by rw [hproc, hl, hn, htake, hInv.proc_take]
        pages_sub := by
          rw [hpg, hproc, List.map_append]
          exact hInv.pages_sub.trans (List.sublist_append_left _ _)
        ups_pages := by rw [hup, hpg, hInv.ups_pages]
        writes_pages := by rw [hcw, hpg, hInv.writes_pages]
        titles := by rw [hpg]; exact hInv.titles }
  · rcases hin with ⟨hb, hsp, hpg, hup, hl, hv⟩ | ⟨docs, hb, hsp, hpg, hup, hl, hv⟩
    · exact
        { vis_links := by rw [hv, hl]; exact hInv.vis_links
          vis_nodup := by rw [hv]; exact hInv.vis_nodup
          n_le := by rw [hn, hl]; omega
          proc_take := by rw [hproc, hl, hn, htake, hInv.proc_take]
          pages_sub := by
            rw [hpg, hproc]
            simp only [List.map_append, List.map_cons, List.map_nil]
            exact List.Sublist.append hInv.pages_sub (List.Sublist.refl _)
          ups_pages := by
            rw [hup, hpg, hInv.ups_pages, List.filterMap_append]
            simp [pageRecs]
          writes_pages := by
            rw [hcw, hpg, hInv.writes_pages]
            simp
          titles := by
            rw [hpg]
            intro pg hmem
            rcases List.mem_append.1 hmem with hold | hnew
            · exact hInv.titles pg hold
            · simp only [List.mem_singleton] at hnew
              subst hnew
              rfl }
    · have hofn := offerNew_spec E o (s.links.getD s.n ⟨"", 0⟩).depth (E.hrefs cleaned)
        s.visited
      exact
        { vis_links := by
            rw [hv, hl, hInv.vis_links, List.map_append]
          vis_nodup := by
            rw [hv]
            refine hInv.vis_nodup.append hofn.2 ?_
            intro a ha hmem
            rcases List.mem_map.1 hmem with ⟨it, hit, hlink⟩
            exact (hofn.1 it hit).2 (hlink ▸ ha)
          n_le := by
            rw [hn, hl, List.length_append]
            omega
          proc_take := by
            rw [hproc, hl, hn, List.take_append_of_le_length (by omega), htake,
              hInv.proc_take]
          pages_sub := by
            rw [hpg, hproc]
            simp only [List.map_append, List.map_cons, List.map_nil]
            exact List.Sublist.append hInv.pages_sub (List.Sublist.refl _)
          ups_pages := by
            rw [hup, hpg, hInv.ups_pages, List.filterMap_append]
            simp [pageRecs]
          writes_pages := by
            rw [hcw, hpg, hInv.writes_pages]
            simp
          titles := by
            rw [hpg]
            intro pg hmem
            rcases List.mem_append.1 hmem with hold | hnew
            · exact hInv.titles pg hold
            · simp only [List.mem_singleton] at hnew
              subst hnew
              rfl }

theorem inv0_loop (E : Env) (p o : String) (f : Bool) (L D : Nat) (fuel : Nat) (s : St)
    (h : Inv0 E p s) : Inv0 E p (loop E p o f L D fuel s).2 :=
  loop_preserves E p o f L D (Inv0 E p)
    (fun s s1 b hP _ h2 _ hpi => inv0_step E p o f s s1 b hP h2 hpi) fuel s h

/-! ## Run-level helper lemmas -/

theorem fetch_config (E : Env) (p o : String) (f : Bool) (c0 : Cache)
    (h : p = "" ∨ o = "") :
    fetch E p o f c0 = ⟨Outcome.configError, initSt o c0, []⟩ := by
  simp [fetch, h]

theorem fetch_run (E : Env) (p o : String) (f : Bool) (c0 : Cache)
    (h : ¬(p = "" ∨ o = "")) :
    fetch E p o f c0 =
      ⟨(loop E p o f max_links max_depth max_links (initSt o c0)).1,
       (loop E p o f max_links max_depth max_links (initSt o c0)).2,
       summaryOf (loop E p o f max_links max_depth max_links (initSt o c0)).1
         (loop E p o f max_links max_depth max_links (initSt o c0)).2⟩ := by
  simp [fetch, h]

theorem loop_succ (E : Env) (p o : String) (f : Bool) (L D fuel : Nat) (s : St) :
    loop E p o f L D (fuel + 1) s =
      if s.n < L ∧ s.n < s.links.length then
        if (s.links.getD s.n ⟨"", 0⟩).depth < D then
          match processItem E p o f s (s.links.getD s.n ⟨"", 0⟩) with
          | (s1, true) => (Outcome.chunkerCrash, s1)
          | (s1, false) => loop E p o f L D fuel s1
        else (Outcome.depthExceeded, s)
      else (Outcome.completed, s) := by
  simp only [loop]

theorem nodup_getElem_not_mem_take (l : List String) (n : Nat) (hn : n < l.length)
    (hd : l.Nodup) : l[n] ∉ l.take n := by
  intro hmem
  have hdrop : l[n] ∈ l.drop n := by
    rw [List.drop_eq_getElem_cons hn]
    exact List.mem_cons_self _ _
  have hsplit : (l.take n ++ l.drop n).Nodup := by
    rw [List.take_append_drop]
    exact hd
  exact (List.nodup_append.1 hsplit).2.2 hmem hdrop

theorem cachePath_inj (p n1 n2 : String) (h : cachePath p n1 = cachePath p n2) :
    n1 = n2 := by
  have hdata : ("cache/" ++ p ++ "/").data ++ (n1.data ++ ".txt".data) =
      ("cache/" ++ p ++ "/").data ++ (n2.data ++ ".txt".data) := by
    have h1 := congrArg String.data h
    simpa [cachePath, String.data_append, List.append_assoc] using h1
  have h2 := List.append_cancel_left hdata
  have h3 := List.append_cancel_right h2
  cases n1
  cases n2
  exact congrArg String.mk h3

theorem loop_stops_when_deep (E : Env) (p o : String) (f : Bool) (L D fuel : Nat)
    (s : St) (hL : s.n < L) (hlen : s.n < s.links.length)
    (hdeep : ¬ (s.links.getD s.n ⟨"", 0⟩).depth < D) :
    loop E p o f L D (fuel + 1) s = (Outcome.depthExceeded, s) := by
  rw [loop_succ, if_pos ⟨hL, hlen⟩, if_neg hdeep]

theorem loop_stops_when_done (E : Env) (p o : String) (f : Bool) (L D fuel : Nat)
    (s : St) (h : ¬(s.n < L ∧ s.n < s.links.length)) :
    loop E p o f L D fuel s = (Outcome.completed, s) := by
  cases fuel <;> simp only [loop] <;> rw [if_neg h]

theorem loop_run_step (E : Env) (p o : String) (f : Bool) (L D fuel : Nat)
    (s : St) (hc : s.n < L ∧ s.n < s.links.length)
    (hd : (s.links.getD s.n ⟨"", 0⟩).depth < D) (s1 : St) (b : Bool)
    (hpi : processItem E p o f s (s.links.getD s.n ⟨"", 0⟩) = (s1, b)) :
    loop E p o f L D (fuel + 1) s =
      if b then (Outcome.chunkerCrash, s1) else loop E p o f L D fuel s1 := by
  rw [loop_succ, if_pos hc, if_pos hd, hpi]
  cases b <;> simp

/-! ## Claim C4 -/

/-- C4: the crawl loop always terminates (the fuel bound, one unit per
`max_links` step, is never the reason it stops); at most `max_links`
items are ever dequeued and processed; and the depth is checked before
processing, so no frontier item with depth at or above `max_depth` is
ever processed. -/
theorem C4_loop_bounds (E : Env) (p o : String) (f : Bool) (c0 : Cache) :
    (fetch E p o f c0).outcome ≠ Outcome.fuelOut ∧
    (fetch E p o f c0).state.processedItems.length ≤ max_links ∧
    ∀ it ∈ (fetch E p o f c0).state.processedItems, it.depth < max_depth := by
  by_cases hcfg : p = "" ∨ o = ""
  · rw [fetch_config E p o f c0 hcfg]
    exact ⟨by simp, by simp [initSt, max_links], by simp [initSt]⟩
  · rw [fetch_run E p o f c0 hcfg]
    dsimp only
    refine ⟨?_, ?_, ?_⟩
    · exact loop_fuel_enough E p o f max_links max_depth max_links (initSt o c0)
        (by simp [initSt])
    · have h := loop_preserves E p o f max_links max_depth
        (fun s => s.processedItems.length = s.n ∧ s.n ≤ max_links)
        (fun s s1 b hP h1 h2 h3 hpi => by
          obtain ⟨hn, hproc, _⟩ := processItem_spec E p o f s _ s1 b hpi
          refine ⟨?_, by omega⟩
          rw [hproc, List.length_append, hP.1, hn]
          simp)
        max_links (initSt o c0) (by simp [initSt])
      omega
    · exact loop_preserves E p o f max_links max_depth
        (fun s => ∀ it ∈ s.processedItems, it.depth < max_depth)
        (fun s s1 b hP h1 h2 h3 hpi => by
          obtain ⟨hn, hproc, _⟩ := processItem_spec E p o f s _ s1 b hpi
          rw [hproc]
          intro it hit
          rcases List.mem_append.1 hit with hold | hnew
          · exact hP it hold
          · simp only [List.mem_singleton] at hnew
            subst hnew
            exact h3)
        max_links (initSt o c0) (by simp [initSt])

/-- Witness for C4 at a concrete environment. -/
theorem C4_loop_bounds_witness :
    (fetch envOneLink "p" "s" false c0e).outcome ≠ Outcome.fuelOut ∧
    (fetch envOneLink "p" "s" false c0e).state.processedItems.length ≤ max_links ∧
    LinkInfo.depth ⟨"s", 0⟩ < max_depth :=
  ⟨(C4_loop_bounds envOneLink "p" "s" false c0e).1,
   (C4_loop_bounds envOneLink "p" "s" false c0e).2.1,
   (C4_loop_bounds envOneLink "p" "s" false c0e).2.2 ⟨"s", 0⟩ (by decide)⟩

/-! ## Claim C5 -/

/-- C5: across one run, the visited set is exactly the set of URLs
ever enqueued (each entering at the moment of its first enqueue,
the seed included), it is duplicate free, and consequently no URL is
ever enqueued onto the frontier twice. -/
theorem C5_visited_set (E : Env) (p o : String) (f : Bool) (c0 : Cache) :
    (fetch E p o f c0).state.visited.Nodup ∧
    (fetch E p o f c0).state.visited =
      (fetch E p o f c0).state.links.map LinkInfo.link ∧
    ((fetch E p o f c0).state.links.map LinkInfo.link).Nodup := by
  by_cases hcfg : p = "" ∨ o = ""
  · rw [fetch_config E p o f c0 hcfg]
    exact ⟨by simp [initSt], by simp [initSt], by simp [initSt]⟩
  · rw [fetch_run E p o f c0 hcfg]
    have h := inv0_loop E p o f max_links max_depth max_links (initSt o c0)
      (inv0_init E p o c0)
    exact ⟨h.vis_nodup, h.vis_links, h.vis_links ▸ h.vis_nodup⟩

/-- Witness for C5 at a concrete environment. -/
theorem C5_visited_set_witness :
    (fetch envOneLink "p" "s" false c0e).state.visited.Nodup ∧
    (fetch envOneLink "p" "s" false c0e).state.visited =
      (fetch envOneLink "p" "s" false c0e).state.links.map LinkInfo.link ∧
    ((fetch envOneLink "p" "s" false c0e).state.links.map LinkInfo.link).Nodup :=
  C5_visited_set envOneLink "p" "s" false c0e

/-! ## Claim C10 -/

theorem fetch_loop_two_steps (E : Env) (p o : String) (f : Bool) (c0 : Cache)
    (s1 : St) (b : Bool)
    (hpi : processItem E p o f (initSt o c0) ⟨o, 0⟩ = (s1, b)) :
    loop E p o f max_links max_depth max_links (initSt o c0) =
      if b then (Outcome.chunkerCrash, s1)
      else if 1 < s1.links.length then (Outcome.depthExceeded, s1)
      else (Outcome.completed, s1) := by
  obtain ⟨hn1, hproc1, hdisj⟩ := processItem_spec E p o f (initSt o c0) ⟨o, 0⟩ s1 b hpi
  have hn1' : s1.n = 1 := by simpa [initSt] using hn1
  have hdeep : 1 < s1.links.length → (s1.links.getD 1 ⟨"", 0⟩).depth = 1 := by
    intro h2
    rcases hdisj with ⟨_, hl, _⟩ | ⟨cleaned, _, _, _, hin⟩
    · rw [hl] at h2
      simp [initSt] at h2
    · rcases hin with ⟨_, _, _, _, hl, _⟩ | ⟨docs, _, _, _, _, hl, _⟩
      · rw [hl] at h2
        simp [initSt] at h2
      · rw [hl] at h2 ⊢
        cases hnew : offerNew E o (LinkInfo.depth ⟨o, 0⟩) (initSt o c0).visited
            (E.hrefs cleaned) with
        | nil =>
          rw [hnew] at h2
          simp [initSt] at h2
        | cons a t =>
          have ha := (offerNew_spec E o (LinkInfo.depth ⟨o, 0⟩) (E.hrefs cleaned)
            (initSt o c0).visited).1 a (by rw [hnew]; exact List.mem_cons_self _ _)
          have : ((initSt o c0).links ++ a :: t).getD 1 ⟨"", 0⟩ = a := by
            simp [initSt, List.getD]
          rw [this, ha.1]
  have e1 : loop E p o f max_links max_depth max_links (initSt o c0) =
      if b then (Outcome.chunkerCrash, s1)
      else loop E p o f max_links max_depth 9 s1 := by
    rw [show (max_links : Nat) = 9 + 1 from rfl]
    refine loop_run_step E p o f (9 + 1) max_depth 9 (initSt o c0)
      (by simp [initSt]) (by simp [initSt, max_depth]) s1 b ?_
    have hcur : (initSt o c0).links.getD (initSt o c0).n ⟨"", 0⟩ = ⟨o, 0⟩ := by
      simp [initSt, List.getD]
    rw [hcur]
    exact hpi
  rw [e1]
  cases b
  · simp only [Bool.false_eq_true, if_false]
    by_cases h2 : 1 < s1.links.length
    · rw [if_pos h2]
      rw [show (9 : Nat) = 8 + 1 from rfl]
      refine loop_stops_when_deep E p o f max_links max_depth 8 s1 ?_ ?_ ?_
      · rw [hn1']
        simp [max_links]
      · rw [hn1']
        exact h2
      · rw [hn1', hdeep h2]
        simp [max_depth]
    · rw [if_neg h2]
      refine loop_stops_when_done E p o f max_links max_depth 9 s1 ?_
      intro hcon
      rw [hn1'] at hcon
      exact h2 hcon.2
  · simp

/-- C10: the bounds are the hardcoded constants `max_links = 10` and
`max_depth = 1`; consequently the only frontier item ever processed is
the seed at depth 0, every indexed page is the seed page, and whenever
the seed contributed at least one accepted outbound link the run ends
through the depth-exceeded exit rather than normal completion. -/
theorem C10_hardcoded_bounds (E : Env) (p o : String) (f : Bool) (c0 : Cache)
    (hp : p ≠ "") (ho : o ≠ "") :
    max_links = 10 ∧ max_depth = 1 ∧
    (fetch E p o f c0).state.processedItems = [⟨o, 0⟩] ∧
    (∀ pg ∈ (fetch E p o f c0).state.pages, pg.url = o) ∧
    (1 < (fetch E p o f c0).state.links.length →
      (fetch E p o f c0).outcome = Outcome.depthExceeded) := by
  have hcfg : ¬(p = "" ∨ o = "") := by simp [hp, ho]
  rw [fetch_run E p o f c0 hcfg]
  dsimp only
  cases hpi : processItem E p o f (initSt o c0) ⟨o, 0⟩ with
  | mk s1 b =>
    rw [fetch_loop_two_steps E p o f c0 s1 b hpi]
    obtain ⟨hn1, hproc1, hdisj⟩ := processItem_spec E p o f (initSt o c0) ⟨o, 0⟩ s1 b hpi
    have hproc1' : s1.processedItems = [⟨o, 0⟩] := by
      rw [hproc1]
      simp [initSt]
    have hpages : ∀ pg ∈ s1.pages, pg.url = o := by
      rcases hdisj with ⟨_, _, _, hpg, _⟩ | ⟨cleaned, _, _, _, hin⟩
      · rw [hpg]
        simp [initSt]
      · rcases hin with ⟨_, _, hpg, _⟩ | ⟨docs, _, _, hpg, _⟩ <;>
          (rw [hpg]; intro pg hmem;
           simp only [initSt, List.nil_append, List.mem_singleton] at hmem;
           subst hmem; rfl)
    cases b
    · simp only [Bool.false_eq_true, if_false]
      by_cases h2 : 1 < s1.links.length
      · rw [if_pos h2]
        exact ⟨rfl, rfl, hproc1', hpages, fun _ => rfl⟩
      · rw [if_neg h2]
        exact ⟨rfl, rfl, hproc1', hpages, fun hcon => absurd hcon h2⟩
    · simp only [if_true]
      refine ⟨rfl, rfl, hproc1', hpages, ?_⟩
      intro h2
      exfalso
      rcases hdisj with ⟨hb, _⟩ | ⟨cleaned, _, _, _, hin⟩
      · simp at hb
      · rcases hin with ⟨_, _, _, _, hl, _⟩ | ⟨docs, hb, _⟩
        · rw [hl] at h2
          simp [initSt] at h2
        · simp at hb

/-- Witness for C10 at a concrete environment. -/
theorem C10_hardcoded_bounds_witness :
    max_links = 10 ∧ max_depth = 1 ∧
    (fetch envOneLink "p" "s" false c0e).state.processedItems = [⟨"s", 0⟩] ∧
    (fetch envOneLink "p" "s" false c0e).outcome = Outcome.depthExceeded :=
  ⟨(C10_hardcoded_bounds envOneLink "p" "s" false c0e (by decide) (by decide)).1,
   (C10_hardcoded_bounds envOneLink "p" "s" false c0e (by decide) (by decide)).2.1,
   (C10_hardcoded_bounds envOneLink "p" "s" false c0e (by decide) (by decide)).2.2.1,
   (C10_hardcoded_bounds envOneLink "p" "s" false c0e (by decide) (by decide)).2.2.2.2
     (by decide)⟩

/-! ## Claim C2 -/

theorem mkRecords_shape (url title : String) (n : Nat) (docs : List String) (i : Nat)
    (r : ChunkRecord) (h : (mkRecords url title n docs)[i]? = some r) :
    r.id = mkId title n i ∧
    r.metadata = [("source_url", url), ("title", title), ("id", mkId title n i)] := by
  unfold mkRecords at h
  rw [List.getElem?_map] at h
  cases he : docs.enum[i]? with
  | none =>
    rw [he] at h
    simp at h
  | some pr =>
    rw [he] at h
    have hpr : ∃ a, docs[i]? = some a ∧ pr = (i, a) := by
      have henum : docs.enum[i]? = docs[i]?.map fun a => (i, a) :=
        List.getElem?_enum docs i
      rw [henum] at he
      cases hd : docs[i]? with
      | none => rw [hd] at he; simp at he
      | some a =>
        rw [hd] at he
        simp only [Option.map_some', Option.some.injEq] at he
        exact ⟨a, rfl, he.symm⟩
    rcases hpr with ⟨a, hd, hpr⟩
    subst hpr
    simp only [Option.map_some', Option.some.injEq] at h
    subst h
    exact ⟨rfl, rfl⟩

/-- C2 counterexample: on an explicit crawl the metadata dict of the
emitted record has exactly the keys `source_url`, `title`, `id` — not
the claimed `chunk_index` and `page_index` keys. -/
theorem C2_counterexample :
    ((fetch envOneLink "p" "s" false c0e).state.upserts.map
      (List.map fun r => r.metadata.map Prod.fst)) = [[["source_url", "title", "id"]]] ∧
    "chunk_index" ∉ (["source_url", "title", "id"] : List String) ∧
    "page_index" ∉ (["source_url", "title", "id"] : List String) := by
  decide

/-- C2 (amended): every upserted batch belongs to one page and carries
a URL, a title and the post-increment processed count `nn` such that
the record at position `i` has id `url_crawler_{title}_{nn}_{i}` and
metadata `{source_url, title, id}` — the id string again under the
`id` key, with no `chunk_index` or `page_index` key; the span position
is recoverable only from the id suffix. -/
theorem C2_record_shape (E : Env) (p o : String) (f : Bool) (c0 : Cache) :
    ∀ batch ∈ (fetch E p o f c0).state.upserts, ∃ url title nn,
      ∀ i r, batch[i]? = some r →
        r.id = mkId title nn i ∧
        r.metadata = [("source_url", url), ("title", title), ("id", mkId title nn i)] := by
  by_cases hcfg : p = "" ∨ o = ""
  · rw [fetch_config E p o f c0 hcfg]
    intro batch hb
    simp [initSt] at hb
  · rw [fetch_run E p o f c0 hcfg]
    dsimp only
    intro batch hb
    have hInv := inv0_loop E p o f max_links max_depth max_links (initSt o c0)
      (inv0_init E p o c0)
    rw [hInv.ups_pages] at hb
    rcases List.mem_filterMap.1 hb with ⟨pg, hpg, hrec⟩
    simp only [pageRecs] at hrec
    rcases Option.map_eq_some'.1 hrec with ⟨docs, hdocs, hbatch⟩
    refine ⟨pg.url, pg.title, pg.nAt, ?_⟩
    intro i r hr
    rw [← hbatch] at hr
    exact mkRecords_shape pg.url pg.title pg.nAt docs i r hr

/-- Witness for the amended C2 at a concrete environment. -/
theorem C2_record_shape_witness :
    (ChunkRecord.metadata ⟨"B", "url_crawler_<title>T</title>_1_0",
      [("source_url", "s"), ("title", "<title>T</title>"),
       ("id", "url_crawler_<title>T</title>_1_0")]⟩).map Prod.fst =
      ["source_url", "title", "id"] := by
  obtain ⟨url, title, nn, hshape⟩ :=
    C2_record_shape envOneLink "p" "s" false c0e
      [⟨"B", "url_crawler_<title>T</title>_1_0",
        [("source_url", "s"), ("title", "<title>T</title>"),
         ("id", "url_crawler_<title>T</title>_1_0")]⟩] (by decide)
  obtain ⟨hid, hmeta⟩ := hshape 0
    ⟨"B", "url_crawler_<title>T</title>_1_0",
     [("source_url", "s"), ("title", "<title>T</title>"),
      ("id", "url_crawler_<title>T</title>_1_0")]⟩ (by decide)
  rw [hmeta]
  simp

/-! ## Claim C6 -/

/-- C6 counterexample: on a document with no title element the stored
title value is the string `"None"` (the `str(None)` rendering), not
the claimed sentinel `"no title"`. -/
theorem C6_counterexample :
    envNoTitleTag.titleTag "B" = none ∧
    (((fetch envNoTitleTag "p" "s" false c0e).state.upserts.headD []).headD
      ⟨"", "", []⟩).metadata.lookup "title" = some "None" ∧
    ("None" : String) ≠ "no title" := by
  decide

/-- C6 (amended): for every fetched page the title is the string
rendering `str(soup.title)` of the page's title element — the whole
tag, not its inner text — and when the document has no title element
the title is the string `"None"` (`str` of Python `None`); neither
case crashes. -/
theorem C6_title_value (E : Env) (p o : String) (f : Bool) (c0 : Cache) :
    ∀ pg ∈ (fetch E p o f c0).state.pages,
      pg.title = titleFrom (E.titleTag pg.cleaned) ∧
      (E.titleTag pg.cleaned = none → pg.title = "None") := by
  by_cases hcfg : p = "" ∨ o = ""
  · rw [fetch_config E p o f c0 hcfg]
    intro pg hpg
    simp [initSt] at hpg
  · rw [fetch_run E p o f c0 hcfg]
    dsimp only
    intro pg hpg
    have hInv := inv0_loop E p o f max_links max_depth max_links (initSt o c0)
      (inv0_init E p o c0)
    have ht := hInv.titles pg hpg
    refine ⟨ht, fun hnone => ?_⟩
    rw [ht, hnone]
    rfl

/-- Witness for the amended C6 at a concrete environment. -/
theorem C6_title_value_witness :
    PageLog.title ⟨"s", 1, "B", "None", some ["B"]⟩ =
      titleFrom (envNoTitleTag.titleTag (PageLog.cleaned ⟨"s", 1, "B", "None", some ["B"]⟩)) :=
  (C6_title_value envNoTitleTag "p" "s" false c0e
    ⟨"s", 1, "B", "None", some ["B"]⟩ (by decide)).1

/-! ## Claim C7 -/

/-- C7 counterexample: with warm cached content for the seed and
`force_recache = false`, the run performs no network request, serves
the seed from the cache, and still rewrites the seed's cache entry —
refuting "on a visit whose content is served from the cache, the entry
is not rewritten". -/
theorem C7_counterexample :
    (fetch envCachedOnly "p" "s" false cacheWarm).state.netAttempts = [] ∧
    (fetch envCachedOnly "p" "s" false cacheWarm).state.cacheHits = ["s"] ∧
    (fetch envCachedOnly "p" "s" false cacheWarm).state.cacheWrites =
      [("cache/p/s.txt", "C")] := by
  decide

/-- C7 (amended): the cache entry of a URL is written exactly once per
visit on which the page's content resolves — whether it came from the
network or from the cache itself — and the written value is the
cleaned HTML, not the raw fetch body; since no URL is processed twice,
each URL's entry is written at most once per run; `force_recache`
bypasses reads but never writes; visits without content write
nothing. -/
theorem C7_cache_write_per_page (E : Env) (p o : String) (f : Bool) (c0 : Cache) :
    (fetch E p o f c0).state.cacheWrites =
      (fetch E p o f c0).state.pages.map
        (fun pg => (cachePath p (E.sha256hex pg.url), pg.cleaned)) ∧
    ((fetch E p o f c0).state.pages.map PageLog.url).Nodup := by
  by_cases hcfg : p = "" ∨ o = ""
  · rw [fetch_config E p o f c0 hcfg]
    exact ⟨by simp [initSt], by simp [initSt]⟩
  · rw [fetch_run E p o f c0 hcfg]
    dsimp only
    have hInv := inv0_loop E p o f max_links max_depth max_links (initSt o c0)
      (inv0_init E p o c0)
    refine ⟨hInv.writes_pages, ?_⟩
    have h1 : List.Sublist
        (((loop E p o f max_links max_depth max_links (initSt o c0)).2.pages.map
          PageLog.url))
        (((loop E p o f max_links max_depth max_links (initSt o c0)).2.links.map
          LinkInfo.link)) := by
      refine hInv.pages_sub.trans ?_
      rw [hInv.proc_take]
      exact (List.take_sublist _ _).map LinkInfo.link
    exact h1.nodup (hInv.vis_links ▸ hInv.vis_nodup)

/-- Witness for the amended C7 at a concrete environment. -/
theorem C7_cache_write_per_page_witness :
    (fetch envOneLink "p" "s" false c0e).state.cacheWrites =
      (fetch envOneLink "p" "s" false c0e).state.pages.map
        (fun pg => (cachePath "p" (envOneLink.sha256hex pg.url), pg.cleaned)) ∧
    ((fetch envOneLink "p" "s" false c0e).state.pages.map PageLog.url).Nodup :=
  C7_cache_write_per_page envOneLink "p" "s" false c0e

/-! ## Claim C3 -/

/-- C3 counterexample: a run on which the seed download fails
terminates through the normal completion path with a nonempty
failed-download set, yet its summary reports only the visited count
and the elapsed time — the failed set is not reported. -/
theorem C3_counterexample :
    (fetch envFetchFails "p" "s" false c0e).outcome = Outcome.completed ∧
    (fetch envFetchFails "p" "s" false c0e).state.failed = ["s"] ∧
    reportsFailed (fetch envFetchFails "p" "s" false c0e).summary = false ∧
    (fetch envFetchFails "p" "s" false c0e).summary =
      [ReportItem.visitedCount 1, ReportItem.elapsed] := by
  decide

/-- C3 (amended): every terminating run (normal completion or depth
exit) reports the count of unique visited URLs, but the
failed-download count is reported only on the depth-exceeded exit and
only when it is nonzero; the normal completion path reports the
visited count and elapsed time and never mentions the failed set. -/
theorem C3_summary_reports (E : Env) (p o : String) (f : Bool) (c0 : Cache)
    (h : (fetch E p o f c0).outcome = Outcome.completed ∨
         (fetch E p o f c0).outcome = Outcome.depthExceeded) :
    ReportItem.visitedCount (fetch E p o f c0).state.visited.length ∈
      (fetch E p o f c0).summary ∧
    (reportsFailed (fetch E p o f c0).summary = true ↔
      ((fetch E p o f c0).outcome = Outcome.depthExceeded ∧
        0 < (fetch E p o f c0).state.failed.length)) := by
  by_cases hcfg : p = "" ∨ o = ""
  · rw [fetch_config E p o f c0 hcfg] at h
    dsimp only at h
    rcases h with h | h <;> simp at h
  · rw [fetch_run E p o f c0 hcfg] at h ⊢
    dsimp only at h ⊢
    rcases h with h | h
    · rw [h]
      simp [summaryOf, reportsFailed]
    · rw [h]
      by_cases hf :
          0 < (loop E p o f max_links max_depth max_links (initSt o c0)).2.failed.length
      · simp [summaryOf, reportsFailed, hf]
      · simp [summaryOf, reportsFailed, hf]

/-- Witness for the amended C3 at a concrete environment. -/
theorem C3_summary_reports_witness :
    ReportItem.visitedCount (fetch envFetchFails "p" "s" false c0e).state.visited.length ∈
      (fetch envFetchFails "p" "s" false c0e).summary ∧
    (reportsFailed (fetch envFetchFails "p" "s" false c0e).summary = true ↔
      ((fetch envFetchFails "p" "s" false c0e).outcome = Outcome.depthExceeded ∧
        0 < (fetch envFetchFails "p" "s" false c0e).state.failed.length)) :=
  C3_summary_reports envFetchFails "p" "s" false c0e (Or.inl (by decide))

/-! ## Claim C1 -/

/-- C1 counterexample: on a seed page whose segmentation raises, the
run ends in the propagated-exception outcome — not one of the two
normal terminations the claim's "the crawl continues" requires — with
no summary printed; the page contributed zero records. -/
theorem C1_counterexample :
    (fetch envChunkerRaises "p" "s" false c0e).outcome = Outcome.chunkerCrash ∧
    (fetch envChunkerRaises "p" "s" false c0e).outcome ≠ Outcome.completed ∧
    (fetch envChunkerRaises "p" "s" false c0e).outcome ≠ Outcome.depthExceeded ∧
    (fetch envChunkerRaises "p" "s" false c0e).state.upserts = [] ∧
    (fetch envChunkerRaises "p" "s" false c0e).summary = [] := by
  decide

/-- C1 (amended): if the chunker raises on a page's normalized text,
no index write happens for that page (it contributes zero records);
but the failure is not caught: the exception propagates, the run
terminates at once with no summary, and no further frontier item is
processed — the crashed page is the last processed item. -/
theorem C1_chunker_crash (E : Env) (p o : String) (f : Bool) (c0 : Cache)
    (h : (fetch E p o f c0).outcome = Outcome.chunkerCrash) :
    (fetch E p o f c0).summary = [] ∧
    ∃ pg cur, (fetch E p o f c0).state.pages.getLast? = some pg ∧
      pg.splitOk = none ∧ pageRecs pg = none ∧
      (fetch E p o f c0).state.processedItems.getLast? = some cur ∧ cur.link = pg.url ∧
      (fetch E p o f c0).state.upserts =
        (fetch E p o f c0).state.pages.dropLast.filterMap pageRecs := by
  by_cases hcfg : p = "" ∨ o = ""
  · rw [fetch_config E p o f c0 hcfg] at h
    dsimp only at h
    simp at h
  · rw [fetch_run E p o f c0 hcfg] at h ⊢
    dsimp only at h ⊢
    obtain ⟨pg, cur, hlast, hsp, hproclast, hcl⟩ :=
      loop_crash_spec E p o f max_links max_depth max_links (initSt o c0)
        (loop E p o f max_links max_depth max_links (initSt o c0)).1
        (loop E p o f max_links max_depth max_links (initSt o c0)).2 rfl h
    have hInv := inv0_loop E p o f max_links max_depth max_links (initSt o c0)
      (inv0_init E p o c0)
    have hpgrecs : pageRecs pg = none := by simp [pageRecs, hsp]
    refine ⟨by rw [h]; rfl, pg, cur, hlast, hsp, hpgrecs, hproclast, hcl, ?_⟩
    have hdecomp :
        (loop E p o f max_links max_depth max_links (initSt o c0)).2.pages.dropLast ++
          [pg] =
        (loop E p o f max_links max_depth max_links (initSt o c0)).2.pages := by
      rcases (loop E p o f max_links max_depth max_links
          (initSt o c0)).2.pages.eq_nil_or_concat with heq | ⟨l2, b2, heq⟩
      · rw [heq] at hlast
        simp at hlast
      · rw [heq] at hlast ⊢
        simp at hlast ⊢
        exact hlast ▸ rfl
    rw [hInv.ups_pages, ← hdecomp, List.filterMap_append]
    simp [hpgrecs]

/-- Witness for the amended C1 at a concrete environment. -/
theorem C1_chunker_crash_witness :
    (fetch envChunkerRaises "p" "s" false c0e).summary = [] :=
  (C1_chunker_crash envChunkerRaises "p" "s" false c0e (by decide)).1

/-! ## Claim C9 -/

theorem resolve_empty_file (E : Env) (p : String) (s : St) (url : String)
    (h : s.cache (cachePath p (E.sha256hex url)) = some "") :
    resolveContent E p false s url =
      (match E.net url with
       | some body => (some body, { s with netAttempts := s.netAttempts ++ [url] })
       | none => (some "", { s with netAttempts := s.netAttempts ++ [url]
                                    failed := if url ∈ s.failed then s.failed
                                      else s.failed ++ [url] })) := by
  simp only [resolveContent, h]
  rw [if_pos (by simp : (True ∧ (some "").isSome = true))]
  rw [if_neg (by decide : ¬ truthy (some "") = true)]

theorem pageCore_netAttempts (E : Env) (p o : String) (s : St) (cur : LinkInfo)
    (cleaned : String) :
    (pageCore E p o s cur cleaned).1.netAttempts = s.netAttempts := by
  cases hpc : pageCore E p o s cur cleaned with
  | mk s3 b3 => exact (pageCore_spec E p o s cur cleaned s3 b3 hpc).2.2.2.1

/-- C9: content truthiness, not file presence, decides the
cache-vs-network-vs-skip path: a cache file that exists but is empty
is treated as a miss (a network request is attempted), and a network
fetch that succeeds with an empty body makes the page be skipped
entirely — no cache write, no page log, no upsert, no link extraction
— without the URL entering the failed-download set. -/
theorem C9_truthiness (E : Env) (p o : String) (s : St) (cur : LinkInfo)
    (hfile : s.cache (cachePath p (E.sha256hex cur.link)) = some "") :
    (processItem E p o false s cur).1.netAttempts = s.netAttempts ++ [cur.link] ∧
    (E.net cur.link = some "" →
      processItem E p o false s cur =
        ({ s with n := s.n + 1
                  processedItems := s.processedItems ++ [cur]
                  netAttempts := s.netAttempts ++ [cur.link] }, false)) := by
  have hfile1 :
      St.cache { s with n := s.n + 1, processedItems := s.processedItems ++ [cur] }
        (cachePath p (E.sha256hex cur.link)) = some "" := hfile
  have hres := resolve_empty_file E p
    { s with n := s.n + 1, processedItems := s.processedItems ++ [cur] } cur.link hfile1
  constructor
  · simp only [processItem]
    rw [hres]
    cases hnet : E.net cur.link with
    | some body =>
      simp only [hnet]
      by_cases hb : truthy (some body) = true
      · rw [if_pos hb]
        simp only [handlePage]
        rw [pageCore_netAttempts]
      · rw [if_neg hb]
    | none =>
      simp only [hnet]
      rw [if_neg (by decide : ¬ truthy (some "") = true)]
  · intro hnet
    simp only [processItem]
    rw [hres]
    simp only [hnet]
    rw [if_neg (by decide : ¬ truthy (some "") = true)]

/-- Witness for C9 at a concrete state. -/
theorem C9_truthiness_witness :
    (processItem envEmptyBody "p" "o" false (initSt "s" cacheEmptyFile)
        ⟨"s", 0⟩).1.netAttempts =
      (initSt "s" cacheEmptyFile).netAttempts ++ ["s"] ∧
    processItem envEmptyBody "p" "o" false (initSt "s" cacheEmptyFile) ⟨"s", 0⟩ =
      ({ initSt "s" cacheEmptyFile with
           n := (initSt "s" cacheEmptyFile).n + 1
           processedItems := (initSt "s" cacheEmptyFile).processedItems ++ [⟨"s", 0⟩]
           netAttempts := (initSt "s" cacheEmptyFile).netAttempts ++ ["s"] }, false) :=
  ⟨(C9_truthiness envEmptyBody "p" "o" (initSt "s" cacheEmptyFile) ⟨"s", 0⟩
      (by decide)).1,
   (C9_truthiness envEmptyBody "p" "o" (initSt "s" cacheEmptyFile) ⟨"s", 0⟩
      (by decide)).2 (by decide)⟩

/-! ## Claim C8: support lemmas -/

theorem cur_link_not_processed (E : Env) (p : String) (s : St) (hInv : Inv0 E p s)
    (hlen : s.n < s.links.length) :
    (s.links.getD s.n ⟨"", 0⟩).link ∉ s.processedItems.map LinkInfo.link := by
  have hnd : (s.links.map LinkInfo.link).Nodup := hInv.vis_links ▸ hInv.vis_nodup
  have hlen2 : s.n < (s.links.map LinkInfo.link).length := by simpa using hlen
  have hnm := nodup_getElem_not_mem_take (s.links.map LinkInfo.link) s.n hlen2 hnd
  have hget : (s.links.map LinkInfo.link)[s.n] = (s.links.getD s.n ⟨"", 0⟩).link := by
    rw [List.getElem_map, List.getD_eq_getElem s.links _ hlen]
  rw [hInv.proc_take, List.map_take, ← hget]
  exact hnm

theorem invCache_step (E : Env) (p o : String) (f : Bool) (s s1 : St) (b : Bool)
    (Hinj : Function.Injective E.sha256hex)
    (hInv : Inv0 E p s) (hIC : InvCache E p s) (hlen : s.n < s.links.length)
    (hpi : processItem E p o f s (s.links.getD s.n ⟨"", 0⟩) = (s1, b)) :
    InvCache E p s1 := by
  obtain ⟨hn, hproc, hdisj⟩ := processItem_spec E p o f s _ s1 b hpi
  have hfresh := cur_link_not_processed E p s hInv hlen
  rcases hdisj with ⟨_, _, _, hpg, _, hc, _⟩ | ⟨cleaned, _, hc, _, hin⟩
  · intro pg hpg1
    rw [hpg] at hpg1
    rw [hc]
    exact hIC pg hpg1
  · have hold : ∀ pg ∈ s.pages,
        updateCache s.cache (cachePath p (E.sha256hex (s.links.getD s.n ⟨"", 0⟩).link))
          cleaned (cachePath p (E.sha256hex pg.url)) = some pg.cleaned := by
      intro pg hmem
      have hne : pg.url ≠ (s.links.getD s.n ⟨"", 0⟩).link := by
        intro hcon
        refine hfresh ?_
        rw [← hcon]
        have : pg.url ∈ s.pages.map PageLog.url := List.mem_map_of_mem PageLog.url hmem
        exact hInv.pages_sub.mem this
      have hpath : cachePath p (E.sha256hex pg.url) ≠
          cachePath p (E.sha256hex (s.links.getD s.n ⟨"", 0⟩).link) := by
        intro hcon
        exact hne (Hinj (cachePath_inj p _ _ hcon))
      rw [updateCache, if_neg hpath]
      exact hIC pg hmem
    have hnew :
        updateCache s.cache (cachePath p (E.sha256hex (s.links.getD s.n ⟨"", 0⟩).link))
          cleaned (cachePath p (E.sha256hex (s.links.getD s.n ⟨"", 0⟩).link)) =
          some cleaned := by
      rw [updateCache, if_pos rfl]
    rcases hin with ⟨_, _, hpg, _⟩ | ⟨docs, _, _, hpg, _⟩ <;>
      (intro pg hpg1
       rw [hpg] at hpg1
       rw [hc]
       rcases List.mem_append.1 hpg1 with hmem | hmem
       · exact hold pg hmem
       · simp only [List.mem_singleton] at hmem
         subst hmem
         exact hnew)

theorem invCache_loop (E : Env) (p o : String) (f : Bool) (L D : Nat)
    (Hinj : Function.Injective E.sha256hex) (fuel : Nat) (s : St)
    (h0 : Inv0 E p s) (hc : InvCache E p s) :
    InvCache E p (loop E p o f L D fuel s).2 :=
  (loop_preserves E p o f L D (fun s => Inv0 E p s ∧ InvCache E p s)
    (fun s s1 b hP _ h2 _ hpi =>
      ⟨inv0_step E p o f s s1 b hP.1 h2 hpi,
       invCache_step E p o f s s1 b Hinj hP.1 hP.2 h2 hpi⟩)
    fuel s ⟨h0, hc⟩).2

theorem loop_missing_page (E : Env) (p o : String) (f : Bool) (L D : Nat) (u : String)
    (fuel : Nat) (s : St)
    (h : Inv0 E p s ∧ u ∈ s.processedItems.map LinkInfo.link ∧
      u ∉ s.pages.map PageLog.url) :
    u ∈ ((loop E p o f L D fuel s).2).processedItems.map LinkInfo.link ∧
    u ∉ ((loop E p o f L D fuel s).2).pages.map PageLog.url := by
  have := loop_preserves E p o f L D
    (fun s => Inv0 E p s ∧ u ∈ s.processedItems.map LinkInfo.link ∧
      u ∉ s.pages.map PageLog.url)
    (fun s s1 b hP h1 h2 h3 hpi => by
      obtain ⟨hn, hproc, hdisj⟩ := processItem_spec E p o f s _ s1 b hpi
      have hfresh := cur_link_not_processed E p s hP.1 h2
      have hne : u ≠ (s.links.getD s.n ⟨"", 0⟩).link := by
        intro hcon
        exact hfresh (hcon ▸ hP.2.1)
      refine ⟨inv0_step E p o f s s1 b hP.1 h2 hpi, ?_, ?_⟩
      · rw [hproc, List.map_append]
        exact List.mem_append.2 (Or.inl hP.2.1)
      · rcases hdisj with ⟨_, _, _, hpg, _⟩ | ⟨cleaned, _, _, _, hin⟩
        · rw [hpg]
          exact hP.2.2
        · rcases hin with ⟨_, _, hpg, _⟩ | ⟨docs, _, _, hpg, _⟩ <;>
            (rw [hpg, List.map_append]
             intro hcon
             rcases List.mem_append.1 hcon with hmem | hmem
             · exact hP.2.2 hmem
             · simp only [List.map_cons, List.map_nil, List.mem_singleton] at hmem
               exact hne hmem))
    fuel s h
  exact ⟨this.2.1, this.2.2⟩

theorem loop_pages_mono (E : Env) (p o : String) (f : Bool) (L D : Nat) (pg : PageLog)
    (fuel : Nat) (s : St) (h : pg ∈ s.pages) :
    pg ∈ ((loop E p o f L D fuel s).2).pages :=
  loop_preserves E p o f L D (fun s => pg ∈ s.pages)
    (fun s s1 b hP _ _ _ hpi => by
      obtain ⟨_, _, hdisj⟩ := processItem_spec E p o f s _ s1 b hpi
      rcases hdisj with ⟨_, _, _, hpg, _⟩ | ⟨cleaned, _, _, _, hin⟩
      · rw [hpg]; exact hP
      · rcases hin with ⟨_, _, hpg, _⟩ | ⟨docs, _, _, hpg, _⟩ <;>
          (rw [hpg]; exact List.mem_append.2 (Or.inl hP)))
    fuel s h

theorem pageCore_eval_error (E : Env) (p o : String) (s : St) (cur : LinkInfo)
    (cleaned : String) (hsp : E.split (E.toMd cleaned) = Except.error ()) :
    pageCore E p o s cur cleaned =
      ({ s with cache := updateCache s.cache (cachePath p (E.sha256hex cur.link)) cleaned
                cacheWrites := s.cacheWrites ++
                  [(cachePath p (E.sha256hex cur.link), cleaned)]
                pages := s.pages ++
                  [⟨cur.link, s.n, cleaned, titleFrom (E.titleTag cleaned), none⟩] },
       true) := by
  simp only [pageCore, hsp]

theorem pageCore_eval_ok (E : Env) (p o : String) (s : St) (cur : LinkInfo)
    (cleaned : String) (docs : List String)
    (hsp : E.split (E.toMd cleaned) = Except.ok docs) :
    pageCore E p o s cur cleaned =
      ({ s with cache := updateCache s.cache (cachePath p (E.sha256hex cur.link)) cleaned
                cacheWrites := s.cacheWrites ++
                  [(cachePath p (E.sha256hex cur.link), cleaned)]
                pages := s.pages ++
                  [⟨cur.link, s.n, cleaned, titleFrom (E.titleTag cleaned), some docs⟩]
                upserts := s.upserts ++
                  [mkRecords cur.link (titleFrom (E.titleTag cleaned)) s.n docs]
                visited := s.visited ++
                  (offerNew E o cur.depth s.visited (E.hrefs cleaned)).map LinkInfo.link
                links := s.links ++ offerNew E o cur.depth s.visited (E.hrefs cleaned) },
       false) := by
  simp only [pageCore, hsp, offer_fold_eq]

theorem processItem_cache_hit (E : Env) (p o : String) (t : St) (cur : LinkInfo)
    (cleaned : String)
    (hc : t.cache (cachePath p (E.sha256hex cur.link)) = some cleaned)
    (hne : cleaned ≠ "")
    (hidem : E.cleanHtml cleaned = cleaned) :
    processItem E p o false t cur =
      pageCore E p o
        { t with n := t.n + 1
                 processedItems := t.processedItems ++ [cur]
                 cacheHits := t.cacheHits ++ [cur.link] } cur cleaned := by
  simp only [processItem]
  have hc1 : St.cache { t with n := t.n + 1, processedItems := t.processedItems ++ [cur] }
      (cachePath p (E.sha256hex cur.link)) = some cleaned := hc
  have htr : truthy (St.cache
      { t with n := t.n + 1, processedItems := t.processedItems ++ [cur] }
      (cachePath p (E.sha256hex cur.link))) = true := by
    rw [hc1]
    simp [truthy, hne]
  rw [resolve_cache_hit E p _ cur.link htr]
  rw [hc1]
  rw [if_pos (by simp [truthy, hne] : truthy (some cleaned) = true)]
  simp only [handlePage, Option.getD_some]
  rw [hidem]


theorem loop_replay (E : Env) (p o : String) (L D : Nat)
    (oF : Outcome) (sF : St)
    (Halign : sF.pages.map PageLog.url = sF.processedItems.map LinkInfo.link)
    (Hidem : ∀ pg ∈ sF.pages, E.cleanHtml pg.cleaned = pg.cleaned)
    (Hne : ∀ pg ∈ sF.pages, pg.cleaned ≠ "")
    (HIC : InvCache E p sF) :
    ∀ fuel s t,
      loop E p o false L D fuel s = (oF, sF) →
      Inv0 E p s →
      s.pages.map PageLog.url = s.processedItems.map LinkInfo.link →
      t.links = s.links → t.visited = s.visited → t.n = s.n → t.failed = s.failed →
      t.upserts = s.upserts → t.pages = s.pages →
      t.processedItems = s.processedItems →
      t.netAttempts = [] → (∀ q, t.cache q = sF.cache q) →
      ∃ tF, loop E p o false L D fuel t = (oF, tF) ∧
        tF.upserts = sF.upserts ∧ tF.netAttempts = [] ∧ tF.pages = sF.pages := by
  intro fuel
  induction fuel with
  | zero =>
    intro s t hrun hInv hmid hl hv hn hf hu hpg hproc hna hcache
    simp only [loop] at hrun ⊢
    by_cases hcond : s.n < L ∧ s.n < s.links.length
    · rw [if_pos hcond] at hrun
      injection hrun with h1 h2
      rw [if_pos (show t.n < L ∧ t.n < t.links.length by rw [hn, hl]; exact hcond)]
      exact ⟨t, by rw [h1], by rw [← h2]; exact hu, hna, by rw [← h2]; exact hpg⟩
    · rw [if_neg hcond] at hrun
      injection hrun with h1 h2
      rw [if_neg (show ¬(t.n < L ∧ t.n < t.links.length) by rw [hn, hl]; exact hcond)]
      exact ⟨t, by rw [h1], by rw [← h2]; exact hu, hna, by rw [← h2]; exact hpg⟩
  | succ fuel ih =>
    intro s t hrun hInv hmid hl hv hn hf hu hpg hproc hna hcache
    by_cases hcond : s.n < L ∧ s.n < s.links.length
    · have hcondt : t.n < L ∧ t.n < t.links.length := by rw [hn, hl]; exact hcond
      have hcurt : t.links.getD t.n ⟨"", 0⟩ = s.links.getD s.n ⟨"", 0⟩ := by rw [hl, hn]
      by_cases hdepth : (s.links.getD s.n ⟨"", 0⟩).depth < D
      · rw [loop_succ, if_pos hcond, if_pos hdepth] at hrun
        cases hpi : processItem E p o false s (s.links.getD s.n ⟨"", 0⟩) with
        | mk s1 b =>
          rw [hpi] at hrun
          obtain ⟨hn1, hproc1, hdisj⟩ := processItem_spec E p o false s _ s1 b hpi
          rcases hdisj with ⟨hb, hl1, hv1, hpg1, hu1, hc1, hcw1⟩ |
            ⟨cleaned, hf1, hc1, hcw1, hin⟩
          · -- no resolved content: contradicts the alignment of the final state
            exfalso
            subst hb
            have hrun2 : loop E p o false L D fuel s1 = (oF, sF) := hrun
            have hInv1 : Inv0 E p s1 := inv0_step E p o false s s1 false hInv hcond.2 hpi
            have hu_in : (s.links.getD s.n ⟨"", 0⟩).link ∈
                s1.processedItems.map LinkInfo.link := by
              rw [hproc1, List.map_append]
              simp
            have hu_not : (s.links.getD s.n ⟨"", 0⟩).link ∉
                s1.pages.map PageLog.url := by
              rw [hpg1, hmid]
              exact cur_link_not_processed E p s hInv hcond.2
            have hmiss := loop_missing_page E p o false L D
              (s.links.getD s.n ⟨"", 0⟩).link fuel s1 ⟨hInv1, hu_in, hu_not⟩
            rw [hrun2] at hmiss
            exact hmiss.2 (by rw [Halign]; exact hmiss.1)
          · rcases hin with ⟨hb, hsp, hpg1, hu1, hl1, hv1⟩ |
              ⟨docs, hb, hsp, hpg1, hu1, hl1, hv1⟩
            · -- the chunker raised on this page: both runs crash here
              subst hb
              have hrun2 : (Outcome.chunkerCrash, s1) = (oF, sF) := hrun
              injection hrun2 with h1 h2
              have hmem : (⟨(s.links.getD s.n ⟨"", 0⟩).link, s.n + 1, cleaned,
                  titleFrom (E.titleTag cleaned), none⟩ : PageLog) ∈ sF.pages := by
                rw [← h2, hpg1]
                simp
              have hneC : cleaned ≠ "" := Hne _ hmem
              have hidemC : E.cleanHtml cleaned = cleaned := Hidem _ hmem
              have hcacheF : sF.cache (cachePath p (E.sha256hex
                  (s.links.getD s.n ⟨"", 0⟩).link)) = some cleaned := HIC _ hmem
              have hstep_t := processItem_cache_hit E p o t (s.links.getD s.n ⟨"", 0⟩)
                cleaned (by rw [hcache]; exact hcacheF) hneC hidemC
              have heval := pageCore_eval_error E p o
                { t with n := t.n + 1
                         processedItems := t.processedItems ++ [s.links.getD s.n ⟨"", 0⟩]
                         cacheHits := t.cacheHits ++ [(s.links.getD s.n ⟨"", 0⟩).link] }
                (s.links.getD s.n ⟨"", 0⟩) cleaned hsp
              have hprocT : processItem E p o false t (t.links.getD t.n ⟨"", 0⟩) =
                  ({ t with
                      n := t.n + 1
                      processedItems := t.processedItems ++ [s.links.getD s.n ⟨"", 0⟩]
                      cacheHits := t.cacheHits ++ [(s.links.getD s.n ⟨"", 0⟩).link]
                      cache := updateCache t.cache
                        (cachePath p (E.sha256hex (s.links.getD s.n ⟨"", 0⟩).link)) cleaned
                      cacheWrites := t.cacheWrites ++
                        [(cachePath p (E.sha256hex (s.links.getD s.n ⟨"", 0⟩).link),
                          cleaned)]
                      pages := t.pages ++ [⟨(s.links.getD s.n ⟨"", 0⟩).link, t.n + 1,
                        cleaned, titleFrom (E.titleTag cleaned), none⟩] }, true) := by
                rw [hcurt, hstep_t, heval]
              have hloopt : loop E p o false L D (fuel + 1) t =
                  (Outcome.chunkerCrash, (processItem E p o false t
                    (t.links.getD t.n ⟨"", 0⟩)).1) := by
                rw [loop_succ, if_pos hcondt,
                  if_pos (show (t.links.getD t.n ⟨"", 0⟩).depth < D by
                    rw [hcurt]; exact hdepth)]
                rw [hprocT]
              refine ⟨_, by rw [hloopt, ← h1], ?_, ?_, ?_⟩
              · rw [hprocT, ← h2, hu1, ← hu]
              · rw [hprocT]
                exact hna
              · rw [hprocT, ← h2, hpg1, hpg, hn]
            · -- chunker succeeded: one lockstep iteration, then recurse
              subst hb
              have hrun2 : loop E p o false L D fuel s1 = (oF, sF) := hrun
              have hmem1 : (⟨(s.links.getD s.n ⟨"", 0⟩).link, s.n + 1, cleaned,
                  titleFrom (E.titleTag cleaned), some docs⟩ : PageLog) ∈ s1.pages := by
                rw [hpg1]
                simp
              have hmemF : (⟨(s.links.getD s.n ⟨"", 0⟩).link, s.n + 1, cleaned,
                  titleFrom (E.titleTag cleaned), some docs⟩ : PageLog) ∈ sF.pages := by
                have hmono := loop_pages_mono E p o false L D _ fuel s1 hmem1
                rw [hrun2] at hmono
                exact hmono
              have hneC : cleaned ≠ "" := Hne _ hmemF
              have hidemC : E.cleanHtml cleaned = cleaned := Hidem _ hmemF
              have hcacheF : sF.cache (cachePath p (E.sha256hex
                  (s.links.getD s.n ⟨"", 0⟩).link)) = some cleaned := HIC _ hmemF
              have hstep_t := processItem_cache_hit E p o t (s.links.getD s.n ⟨"", 0⟩)
                cleaned (by rw [hcache]; exact hcacheF) hneC hidemC
              have heval := pageCore_eval_ok E p o
                { t with n := t.n + 1
                         processedItems := t.processedItems ++ [s.links.getD s.n ⟨"", 0⟩]
                         cacheHits := t.cacheHits ++ [(s.links.getD s.n ⟨"", 0⟩).link] }
                (s.links.getD s.n ⟨"", 0⟩) cleaned docs hsp
              have hprocT : processItem E p o false t (t.links.getD t.n ⟨"", 0⟩) =
                  ({ t with
                      n := t.n + 1
                      processedItems := t.processedItems ++ [s.links.getD s.n ⟨"", 0⟩]
                      cacheHits := t.cacheHits ++ [(s.links.getD s.n ⟨"", 0⟩).link]
                      cache := updateCache t.cache
                        (cachePath p (E.sha256hex (s.links.getD s.n ⟨"", 0⟩).link)) cleaned
                      cacheWrites := t.cacheWrites ++
                        [(cachePath p (E.sha256hex (s.links.getD s.n ⟨"", 0⟩).link),
                          cleaned)]
                      pages := t.pages ++ [⟨(s.links.getD s.n ⟨"", 0⟩).link, t.n + 1,
                        cleaned, titleFrom (E.titleTag cleaned), some docs⟩]
                      upserts := t.upserts ++ [mkRecords (s.links.getD s.n ⟨"", 0⟩).link
                        (titleFrom (E.titleTag cleaned)) (t.n + 1) docs]
                      visited := t.visited ++ (offerNew E o
                        (s.links.getD s.n ⟨"", 0⟩).depth t.visited
                        (E.hrefs cleaned)).map LinkInfo.link
                      links := t.links ++ offerNew E o
                        (s.links.getD s.n ⟨"", 0⟩).depth t.visited
                        (E.hrefs cleaned) }, false) := by
                rw [hcurt, hstep_t, heval]
              have hInv1 : Inv0 E p s1 := inv0_step E p o false s s1 false hInv hcond.2 hpi
              have hmid1 : s1.pages.map PageLog.url =
                  s1.processedItems.map LinkInfo.link := by
                rw [hpg1, hproc1, List.map_append, List.map_append, hmid]
                rfl
              obtain ⟨tF, hloopTF, hx1, hx2, hx3⟩ := ih s1
                (processItem E p o false t (t.links.getD t.n ⟨"", 0⟩)).1
                hrun2 hInv1 hmid1
                (by rw [hprocT, hl1, hl, hv])
                (by rw [hprocT, hv1, hv])
                (by rw [hprocT, hn1, hn])
                (by rw [hprocT, hf1, hf])
                (by rw [hprocT, hu1, hu, hn])
                (by rw [hprocT, hpg1, hpg, hn])
                (by rw [hprocT, hproc1, hproc])
                (by rw [hprocT]; exact hna)
                (by
                  rw [hprocT]
                  intro q
                  dsimp only
                  rw [updateCache]
                  by_cases hq : q = cachePath p (E.sha256hex
                    (s.links.getD s.n ⟨"", 0⟩).link)
                  · rw [if_pos hq, hq, hcacheF]
                  · rw [if_neg hq, hcache q])
              refine ⟨tF, ?_, hx1, hx2, hx3⟩
              rw [loop_succ, if_pos hcondt,
                if_pos (show (t.links.getD t.n ⟨"", 0⟩).depth < D by
                  rw [hcurt]; exact hdepth)]
              cases hpt : processItem E p o false t (t.links.getD t.n ⟨"", 0⟩) with
              | mk t1 bt =>
                have hbt : bt = false := by
                  have h := hpt.symm.trans hprocT
                  have h2 : _ ∧ _ := Prod.mk.injEq .. ▸ h
                  exact h2.2
                subst hbt
                have ht1 : t1 = (processItem E p o false t
                    (t.links.getD t.n ⟨"", 0⟩)).1 := by rw [hpt]
                rw [ht1]
                exact hloopTF
      · rw [loop_stops_when_deep E p o false L D fuel s hcond.1 hcond.2 hdepth] at hrun
        injection hrun with h1 h2
        have hloopt := loop_stops_when_deep E p o false L D fuel t hcondt.1 hcondt.2
          (by rw [hcurt]; exact hdepth)
        exact ⟨t, by rw [hloopt, h1], by rw [← h2]; exact hu, hna,
          by rw [← h2]; exact hpg⟩
    · rw [loop_stops_when_done E p o false L D (fuel + 1) s hcond] at hrun
      injection hrun with h1 h2
      have hloopt := loop_stops_when_done E p o false L D (fuel + 1) t
        (show ¬(t.n < L ∧ t.n < t.links.length) by rw [hn, hl]; exact hcond)
      exact ⟨t, by rw [hloopt, h1], by rw [← h2]; exact hu, hna,
        by rw [← h2]; exact hpg⟩

/-- C8: with an injective URL digest, idempotent re-cleaning of
already-cleaned HTML, and no empty cleaned page — and given that the
first run resolved content for every item it processed (the claim's
"cached every visited page") — a second `fetch` on the first run's
cache with `force_recache = false` and the same seed performs zero
network requests and produces exactly the same upsert batches, hence
the same set of ChunkRecord ids, and ends in the same outcome. -/
theorem C8_idempotent_reindex (E : Env) (p o : String) (c0 : Cache)
    (Hinj : Function.Injective E.sha256hex)
    (Halign : (fetch E p o false c0).state.pages.map PageLog.url =
      (fetch E p o false c0).state.processedItems.map LinkInfo.link)
    (Hidem : ∀ pg ∈ (fetch E p o false c0).state.pages,
      E.cleanHtml pg.cleaned = pg.cleaned)
    (Hne : ∀ pg ∈ (fetch E p o false c0).state.pages, pg.cleaned ≠ "") :
    (fetch E p o false ((fetch E p o false c0).state.cache)).state.netAttempts = [] ∧
    (fetch E p o false ((fetch E p o false c0).state.cache)).state.upserts =
      (fetch E p o false c0).state.upserts ∧
    (fetch E p o false ((fetch E p o false c0).state.cache)).outcome =
      (fetch E p o false c0).outcome := by
  by_cases hcfg : p = "" ∨ o = ""
  · rw [fetch_config E p o false c0 hcfg]
    rw [fetch_config E p o false _ hcfg]
    exact ⟨rfl, rfl, rfl⟩
  · rw [fetch_run E p o false c0 hcfg] at Halign Hidem Hne ⊢
    dsimp only at Halign Hidem Hne ⊢
    rw [fetch_run E p o false _ hcfg]
    dsimp only
    have hIC : InvCache E p
        (loop E p o false max_links max_depth max_links (initSt o c0)).2 :=
      invCache_loop E p o false max_links max_depth Hinj max_links (initSt o c0)
        (inv0_init E p o c0) (by intro pg hpg; simp [initSt] at hpg)
    obtain ⟨tF, hloopT, hups, hnet, hpgs⟩ := loop_replay E p o max_links max_depth
      (loop E p o false max_links max_depth max_links (initSt o c0)).1
      (loop E p o false max_links max_depth max_links (initSt o c0)).2
      Halign Hidem Hne hIC max_links (initSt o c0)
      (initSt o ((loop E p o false max_links max_depth max_links (initSt o c0)).2.cache))
      rfl (inv0_init E p o c0) (by simp [initSt])
      rfl rfl rfl rfl rfl rfl rfl rfl (fun q => rfl)
    rw [hloopT]
    exact ⟨hnet, hups, rfl⟩

/-- Witness for C8 at a concrete environment. -/
theorem C8_idempotent_reindex_witness :
    (fetch envOneLink "p" "s" false
        ((fetch envOneLink "p" "s" false c0e).state.cache)).state.netAttempts = [] ∧
    (fetch envOneLink "p" "s" false
        ((fetch envOneLink "p" "s" false c0e).state.cache)).state.upserts =
      (fetch envOneLink "p" "s" false c0e).state.upserts ∧
    (fetch envOneLink "p" "s" false
        ((fetch envOneLink "p" "s" false c0e).state.cache)).outcome =
      (fetch envOneLink "p" "s" false c0e).outcome :=
  C8_idempotent_reindex envOneLink "p" "s" c0e (fun a b h => h) (by decide)
    (by intro pg hpg; rfl) (by decide)


end Learndocs
